import Mathlib

/-!
Verification of the StreamFlix movie aggregation program.

The program (Movie.h, MovieDatabase.h / MovieDatabase.cpp, StreamFlix.cpp,
TMDBServiceProvider.h / .cpp) fetches movie listings from a remote API on two
concurrent threads, stores them in `std::list`-backed databases, prints them
sorted three ways, and filters titles against the regular expression
`.*[dD]es.*`.

Modelling conventions:
  - titles (std::string values) are lists of characters; byte-wise comparison
    of UTF-8 text coincides with code-point lexicographic comparison;
  - ratings (float values) are rationals: the program only ever stores and
    compares finite floating-point ratings, and on finite values the float
    ordering embeds order-faithfully into the rationals;
  - `std::list::sort`, which the C++ standard requires to be a stable sort
    with respect to the supplied strict weak ordering `lt`, is modelled by
    `List.mergeSort` with the total preorder `le a b := not (lt b a)`: a
    stable sort against a strict weak ordering has a unique result, and
    `mergeSort` computes exactly it.
-/

/-- The NUL character, terminator of C strings. -/
def nulChar : Char := Char.ofNat 0

/-- Models passing `title.c_str()` to a `const char*` parameter that is then
read by the `std::string(const char*)` constructor: only the characters before
the first NUL survive. -/
def cStringOf (s : List Char) : List Char :=
  s.takeWhile (fun c => !(c == nulChar))

/-- Embeds `class Movie` (Movie.h): a title and a rating.  The constructor
used by the program is `Movie(const char* str, float rating)`; the C-string
truncation is applied at the call site (`cStringOf`), since that is where the
`const char*` is produced from a `std::string`. -/
structure Movie where
  title : List Char
  rating : Rat
  deriving DecidableEq

/-- Embeds `using MovieList = std::list<Movie>` (MovieDatabase.h). -/
abbrev MovieList := List Movie

/-- Embeds `class MovieDatabase` (MovieDatabase.h): a `MovieList movies`
field. -/
structure MovieDatabase where
  movies : MovieList
  deriving DecidableEq

/-- Embeds `MovieDatabase::GetMovies`: returns the insertion-order list. -/
def MovieDatabase.GetMovies (db : MovieDatabase) : MovieList :=
  db.movies

/-- Embeds `MovieDatabase::AddMovie` (MovieDatabase.cpp):
`movies.push_back(Movie{title.c_str(), rating})`. -/
def MovieDatabase.AddMovie (db : MovieDatabase) (title : List Char) (rating : Rat) :
    MovieDatabase :=
  ⟨db.movies ++ [Movie.mk (cStringOf title) rating]⟩

/-- Embeds `operator<` on `std::string` (used by the title sort comparator):
byte-wise lexicographic comparison, a shorter strict prefix comparing
smaller. -/
def strLt : List Char → List Char → Bool
  | _, [] => false
  | [], _ :: _ => true
  | a :: as, b :: bs => if a < b then true else if b < a then false else strLt as bs

/-- The total preorder corresponding to the comparator
`a.GetTitle() < b.GetTitle()` handed to `std::list::sort` in
`GetMoviesSortedByTitle`: `a` may stay before `b` iff `not (b < a)`. -/
def titleSortLe (a b : Movie) : Bool :=
  !(strLt b.title a.title)

/-- The total preorder corresponding to the comparator
`a.GetRating() > b.GetRating()` handed to `std::list::sort` in
`GetMoviesSortedByRating`: `a` may stay before `b` iff
`not (b.rating > a.rating)`. -/
def ratingSortLe (a b : Movie) : Bool :=
  decide (b.rating ≤ a.rating)

/-- Embeds `MovieDatabase::GetMoviesSortedByTitle` (MovieDatabase.h): copies
the list and stable-sorts the copy with the title comparator. -/
def MovieDatabase.GetMoviesSortedByTitle (db : MovieDatabase) : MovieList :=
  db.movies.mergeSort titleSortLe

/-- Embeds `MovieDatabase::GetMoviesSortedByRating` (MovieDatabase.h): copies
the list and stable-sorts the copy with the rating comparator. -/
def MovieDatabase.GetMoviesSortedByRating (db : MovieDatabase) : MovieList :=
  db.movies.mergeSort ratingSortLe

/-- State-passing view of the const method `GetMoviesSortedByTitle`: the
method returns a freshly sorted copy and leaves the receiver object as it
was (it is declared `const` and sorts a copy of `movies`). -/
def MovieDatabase.GetMoviesSortedByTitleC (db : MovieDatabase) :
    MovieList × MovieDatabase :=
  (db.GetMoviesSortedByTitle, db)

/-- State-passing view of the const method `GetMoviesSortedByRating`. -/
def MovieDatabase.GetMoviesSortedByRatingC (db : MovieDatabase) :
    MovieList × MovieDatabase :=
  (db.GetMoviesSortedByRating, db)

/-- The spec-side ordinal (byte-wise lexicographic) non-strict text order, in
terms of which the title-sort claims are phrased. -/
def lexLe : List Char → List Char → Bool
  | [], _ => true
  | _ :: _, [] => false
  | a :: as, b :: bs => if a < b then true else if b < a then false else lexLe as bs

theorem strLt_irrefl (a : List Char) : strLt a a = false := by
  induction a with
  | nil => rfl
  | cons c t ih => simp [strLt, ih]

theorem strLt_asymm : ∀ (a b : List Char), strLt a b = true → strLt b a = false
  | a, [] => by intro h; simp [strLt] at h
  | [], b :: bs => by intro _; simp [strLt]
  | a :: as, b :: bs => by
    intro h
    simp only [strLt] at h ⊢
    by_cases hab : a < b
    · simp [hab, lt_asymm hab]
    · by_cases hba : b < a
      · simp [hab, hba] at h
      · simp only [hab, hba, if_false] at h
        simp [hab, hba, strLt_asymm as bs h]

theorem strLt_false_trans :
    ∀ (a b c : List Char), strLt b a = false → strLt c b = false → strLt c a = false
  | [], _, c => by intro _ _; cases c <;> simp [strLt]
  | _ :: _, [], _ => by intro h _; simp [strLt] at h
  | _ :: _, _ :: _, [] => by intro _ h2; simp [strLt] at h2
  | a :: as, b :: bs, c :: cs => by
    intro h1 h2
    simp only [strLt] at h1 h2 ⊢
    by_cases hba : b < a
    · simp [hba] at h1
    · by_cases hcb : c < b
      · simp [hcb] at h2
      · have hca : ¬ c < a := not_lt.mpr (le_trans (le_of_not_lt hba) (le_of_not_lt hcb))
        simp only [hba, if_false] at h1
        simp only [hcb, if_false] at h2
        by_cases hab : a < b
        · have hac : a < c := lt_of_lt_of_le hab (le_of_not_lt hcb)
          simp [hca, hac]
        · by_cases hbc : b < c
          · have hac : a < c := lt_of_le_of_lt (le_of_not_lt hba) hbc
            simp [hca, hac]
          · simp only [hab, if_false] at h1
            simp only [hbc, if_false] at h2
            have hac : ¬ a < c := by
              intro h
              exact absurd (lt_of_lt_of_le h (le_of_not_lt hbc)) hab
            simp [hca, hac, strLt_false_trans as bs cs h1 h2]

theorem titleSortLe_trans (a b c : Movie)
    (h1 : titleSortLe a b) (h2 : titleSortLe b c) : titleSortLe a c := by
  simp only [titleSortLe, Bool.not_eq_true', Bool.not_eq_eq_eq_not, Bool.not_true] at h1 h2 ⊢
  exact strLt_false_trans a.title b.title c.title h1 h2

theorem titleSortLe_total (a b : Movie) : titleSortLe a b || titleSortLe b a := by
  simp only [titleSortLe]
  by_cases h : strLt b.title a.title = true
  · simp [strLt_asymm _ _ h]
  · simp [Bool.not_eq_true] at h
    simp [h]

theorem ratingSortLe_trans (a b c : Movie)
    (h1 : ratingSortLe a b) (h2 : ratingSortLe b c) : ratingSortLe a c := by
  simp only [ratingSortLe, decide_eq_true_eq] at h1 h2 ⊢
  exact le_trans h2 h1

theorem ratingSortLe_total (a b : Movie) : ratingSortLe a b || ratingSortLe b a := by
  simp only [ratingSortLe]
  rcases le_total a.rating b.rating with h | h <;> simp [h]

theorem lexLe_eq_not_strLt : ∀ (a b : List Char), lexLe a b = !(strLt b a)
  | [], b => by cases b <;> simp [lexLe, strLt]
  | a :: as, [] => by simp [lexLe, strLt]
  | a :: as, b :: bs => by
    simp only [lexLe, strLt]
    by_cases h1 : a < b
    · simp [h1, lt_asymm h1]
    · by_cases h2 : b < a
      · simp [h1, h2]
      · simp [h1, h2, lexLe_eq_not_strLt as bs]

/-- Stability of the modelled `std::list::sort`: a filter that only keeps
mutually tied elements commutes with the sort, hence the relative order of
tied elements survives sorting. -/
theorem filter_mergeSort_tied (le : Movie → Movie → Bool)
    (htrans : ∀ a b c : Movie, le a b → le b c → le a c)
    (htotal : ∀ a b : Movie, le a b || le b a)
    (l : List Movie) (p : Movie → Bool)
    (tied : ∀ a b, p a = true → p b = true → le a b = true) :
    (l.mergeSort le).filter p = l.filter p := by
  have hpw : (l.filter p).Pairwise (fun a b => le a b = true) :=
    List.pairwise_of_forall_mem_list (fun a ha b hb =>
      tied a b (List.mem_filter.mp ha).2 (List.mem_filter.mp hb).2)
  have hsub : List.Sublist (l.filter p) (l.mergeSort le) :=
    List.sublist_mergeSort htrans htotal hpw (List.filter_sublist l)
  have hsub2 : List.Sublist ((l.filter p).filter p) ((l.mergeSort le).filter p) := hsub.filter p
  rw [List.filter_filter] at hsub2
  simp only [Bool.and_self] at hsub2
  have hlen : ((l.mergeSort le).filter p).length = (l.filter p).length :=
    ((List.mergeSort_perm l le).filter p).length_eq
  exact (hsub2.eq_of_length hlen.symm).symm

/-- Claim C2: for every Collection, `GetMoviesSortedByRating` is a permutation
of the stored movies, ordered non-increasingly by rating, and any two movies
of equal rating keep the relative order they had in the original list (the
filter on each rating value is unchanged by the sort). -/
theorem claim_C2 (db : MovieDatabase) :
    (db.GetMoviesSortedByRating).Perm db.GetMovies
    ∧ (db.GetMoviesSortedByRating).Pairwise (fun a b => b.rating ≤ a.rating)
    ∧ ∀ r : Rat,
        (db.GetMoviesSortedByRating).filter (fun m => decide (m.rating = r))
          = db.GetMovies.filter (fun m => decide (m.rating = r)) := by
  refine ⟨List.mergeSort_perm _ _, ?_, ?_⟩
  · have h := List.sorted_mergeSort
      ratingSortLe_trans ratingSortLe_total db.movies
    exact h.imp (fun hab => by simpa [ratingSortLe] using hab)
  · intro r
    exact filter_mergeSort_tied ratingSortLe ratingSortLe_trans ratingSortLe_total
      db.movies _
      (fun a b ha hb => by
        simp only [decide_eq_true_eq] at ha hb
        simp [ratingSortLe, ha, hb])

/-- Claim C6: for every Collection, `GetMoviesSortedByTitle` is a permutation
of the stored movies ordered non-decreasingly by title under byte-wise
lexicographic comparison, and the const method leaves the database
unchanged. -/
theorem claim_C6 (db : MovieDatabase) :
    (db.GetMoviesSortedByTitle).Perm db.GetMovies
    ∧ (db.GetMoviesSortedByTitle).Pairwise (fun a b => lexLe a.title b.title = true)
    ∧ (db.GetMoviesSortedByTitleC).2 = db := by
  refine ⟨List.mergeSort_perm _ _, ?_, rfl⟩
  have h := List.sorted_mergeSort
    titleSortLe_trans titleSortLe_total db.movies
  exact h.imp (fun hab => by
    rw [lexLe_eq_not_strLt]
    simpa [titleSortLe] using hab)

/-- Claim C7: `AddMovie` followed immediately by either or both sorted views
leaves the insertion-order contents equal to the old sequence with the newly
stored record at the end. -/
theorem claim_C7 (db : MovieDatabase) (title : List Char) (rating : Rat) :
    (db.AddMovie title rating).GetMovies
        = db.GetMovies ++ [Movie.mk (cStringOf title) rating]
    ∧ ((db.AddMovie title rating).GetMoviesSortedByTitleC).2.GetMovies
        = db.GetMovies ++ [Movie.mk (cStringOf title) rating]
    ∧ ((db.AddMovie title rating).GetMoviesSortedByRatingC).2.GetMovies
        = db.GetMovies ++ [Movie.mk (cStringOf title) rating]
    ∧ ((((db.AddMovie title rating).GetMoviesSortedByTitleC).2).GetMoviesSortedByRatingC).2.GetMovies
        = db.GetMovies ++ [Movie.mk (cStringOf title) rating] :=
  ⟨rfl, rfl, rfl, rfl⟩

/-- Claim C10: the title sort is also stable: the filter on each title value
is unchanged by the sort, so movies with equal titles keep their original
relative order. -/
theorem claim_C10 (db : MovieDatabase) (t : List Char) :
    (db.GetMoviesSortedByTitle).filter (fun m => decide (m.title = t))
      = db.GetMovies.filter (fun m => decide (m.title = t)) :=
  filter_mergeSort_tied titleSortLe titleSortLe_trans titleSortLe_total
    db.movies _
    (fun a b ha hb => by
      simp only [decide_eq_true_eq] at ha hb
      simp [titleSortLe, ha, hb, strLt_irrefl])

theorem cStringOf_cons_ne (c : Char) (r : List Char) (hc : c ≠ nulChar) :
    cStringOf (c :: r) = c :: cStringOf r := by
  simp [cStringOf, List.takeWhile_cons, hc]

theorem cStringOf_cons_nul (r : List Char) : cStringOf (nulChar :: r) = [] := by
  simp [cStringOf, List.takeWhile_cons]

theorem cStringOf_no_nul (t : List Char) (h : nulChar ∉ t) : cStringOf t = t := by
  induction t with
  | nil => rfl
  | cons c r ih =>
    simp only [List.mem_cons, not_or] at h
    rw [cStringOf_cons_ne c r (fun hh => h.1 hh.symm), ih h.2]

theorem cStringOf_with_nul (t : List Char) (h : nulChar ∈ t) :
    ∃ rest, t = cStringOf t ++ nulChar :: rest ∧ nulChar ∉ cStringOf t := by
  induction t with
  | nil => cases h
  | cons c r ih =>
    by_cases hc : c = nulChar
    · subst hc
      exact ⟨r, by simp [cStringOf_cons_nul], by simp [cStringOf_cons_nul]⟩
    · have hr : nulChar ∈ r := by
        rcases List.mem_cons.mp h with h1 | h1
        · exact absurd h1.symm hc
        · exact h1
      obtain ⟨rest, heq, hnot⟩ := ih hr
      refine ⟨rest, ?_, ?_⟩
      · conv_lhs => rw [heq]
        rw [cStringOf_cons_ne c r (fun hh => hc hh), List.cons_append]
      · rw [cStringOf_cons_ne c r (fun hh => hc hh)]
        simp only [List.mem_cons, not_or]
        exact ⟨fun hh => hc hh.symm, hnot⟩

/-- Claim C9: `AddMovie` stores the record with the title truncated at the
first NUL character (the std::string is routed through a C-string
constructor); titles without an embedded NUL are stored exactly. -/
theorem claim_C9 (db : MovieDatabase) (title : List Char) (rating : Rat) :
    (db.AddMovie title rating).GetMovies
        = db.GetMovies ++ [Movie.mk (cStringOf title) rating]
    ∧ (nulChar ∈ title →
        ∃ rest, title = cStringOf title ++ nulChar :: rest ∧ nulChar ∉ cStringOf title)
    ∧ (nulChar ∉ title → cStringOf title = title) :=
  ⟨rfl, cStringOf_with_nul title, cStringOf_no_nul title⟩

/-- Claim C9, witnessed on the concrete title "a\x00b" (truncated to "a")
and on the NUL-free title "x" (stored exactly). -/
theorem claim_C9_witness :
    (∃ rest, ['a', nulChar, 'b'] = cStringOf ['a', nulChar, 'b'] ++ nulChar :: rest
        ∧ nulChar ∉ cStringOf ['a', nulChar, 'b'])
    ∧ (cStringOf ['x'] = ['x']) :=
  ⟨(claim_C9 ⟨[]⟩ ['a', nulChar, 'b'] 0).2.1 (by decide),
   (claim_C9 ⟨[]⟩ ['x'] 0).2.2 (by decide)⟩

/-- Lookahead used while scanning for the pattern `.*[dD]es.*`: the next two
characters are literally "es". -/
def esAhead : List Char → Bool
  | c1 :: c2 :: _ => c1 == 'e' && c2 == 's'
  | _ => false

/-- Embeds `std::regex_search(movie.GetTitle(), std::regex(".*[dD]es.*"))`
(StreamFlix.cpp).  `regex_search` succeeds iff some substring of the subject
matches the pattern, which for this pattern holds iff the subject contains a
character of the class [dD] immediately followed by the literal characters
"es"; the definition scans the subject for such an occurrence. -/
def desSearch : List Char → Bool
  | [] => false
  | c :: rest => ((c == 'd' || c == 'D') && esAhead rest) || desSearch rest

/-- Embeds the filter step of `StreamFlix::Run`: `std::copy_if` from the
popular collection (read through a const reference) into an initially empty
`matchingMovies` list, keeping the movies whose title matches the regular
expression. -/
def matchingMoviesOf (popular : MovieDatabase) : MovieList :=
  popular.GetMovies.filter (fun m => desSearch m.title)

/-- State-passing view of the filter step: the source collection is only
read, never written. -/
def matchingMoviesOfC (popular : MovieDatabase) : MovieList × MovieDatabase :=
  (matchingMoviesOf popular, popular)

/-- Spec-side notion: `pat` occurs contiguously somewhere inside `s`. -/
def occursIn (pat s : List Char) : Prop :=
  ∃ pre suf, s = pre ++ pat ++ suf

/-- ASCII lowercasing of one character: the ordinary reading of matching a
substring while ignoring letter case. -/
def lowerAscii (c : Char) : Char :=
  if 'A' ≤ c ∧ c ≤ 'Z' then Char.ofNat (c.toNat + 32) else c

theorem not_occursIn_nil (c : Char) (pat : List Char) : ¬ occursIn (c :: pat) [] := by
  rintro ⟨pre, suf, h⟩
  cases pre <;> simp at h

theorem occursIn_cons (pat : List Char) (c : Char) (s : List Char) :
    occursIn pat (c :: s) ↔ (∃ suf, c :: s = pat ++ suf) ∨ occursIn pat s := by
  constructor
  · rintro ⟨pre, suf, h⟩
    cases pre with
    | nil => exact Or.inl ⟨suf, by simpa using h⟩
    | cons p ps =>
      simp only [List.cons_append, List.cons.injEq] at h
      exact Or.inr ⟨ps, suf, h.2⟩
  · rintro (⟨suf, h⟩ | ⟨pre, suf, h⟩)
    · exact ⟨[], suf, by simpa using h⟩
    · exact ⟨c :: pre, suf, by simp [h]⟩

theorem esAhead_shape (r : List Char) (h : esAhead r = true) :
    ∃ t, r = 'e' :: 's' :: t := by
  match r with
  | [] => simp [esAhead] at h
  | [c] => simp [esAhead] at h
  | c1 :: c2 :: t =>
    simp only [esAhead, Bool.and_eq_true, beq_iff_eq] at h
    exact ⟨t, by simp [h.1, h.2]⟩

/-- Characterization of the embedded regex search: it succeeds exactly on
subjects containing "des" or "Des". -/
theorem desSearch_iff (s : List Char) :
    desSearch s = true ↔ occursIn ['d', 'e', 's'] s ∨ occursIn ['D', 'e', 's'] s := by
  induction s with
  | nil =>
    simp only [desSearch, Bool.false_eq_true, false_iff]
    rintro (h | h)
    · exact not_occursIn_nil _ _ h
    · exact not_occursIn_nil _ _ h
  | cons c rest ih =>
    simp only [desSearch, Bool.or_eq_true, Bool.and_eq_true, beq_iff_eq]
    rw [occursIn_cons, occursIn_cons]
    constructor
    · rintro (⟨hc, hes⟩ | hrest)
      · obtain ⟨t, ht⟩ := esAhead_shape rest hes
        rcases hc with hc | hc
        · exact Or.inl (Or.inl ⟨t, by simp [hc, ht]⟩)
        · exact Or.inr (Or.inl ⟨t, by simp [hc, ht]⟩)
      · rcases ih.mp hrest with h | h
        · exact Or.inl (Or.inr h)
        · exact Or.inr (Or.inr h)
    · rintro ((⟨suf, h⟩ | h) | (⟨suf, h⟩ | h))
      · simp only [List.cons_append, List.nil_append, List.cons.injEq] at h
        exact Or.inl ⟨Or.inl h.1, by simp [h.2, esAhead]⟩
      · exact Or.inr (ih.mpr (Or.inl h))
      · simp only [List.cons_append, List.nil_append, List.cons.injEq] at h
        exact Or.inl ⟨Or.inr h.1, by simp [h.2, esAhead]⟩
      · exact Or.inr (ih.mpr (Or.inr h))

/-- Claim C3 counterexample: the title "DESPERADO" contains the substring
"des" when letter case is ignored, yet the filter step drops it — the regex
`[dD]es` only tolerates case variation on the first character, so the match
is not case-insensitive. -/
theorem claim_C3_counterexample :
    matchingMoviesOf ⟨[Movie.mk "DESPERADO".toList 0]⟩ = []
    ∧ occursIn ['d', 'e', 's'] ("DESPERADO".toList.map lowerAscii) := by
  refine ⟨by decide, ⟨[], ['p', 'e', 'r', 'a', 'd', 'o'], by decide⟩⟩

/-- Claim C3 (amended): the filter keeps a record iff its title contains
"des" or "Des" — only the case of the initial letter of the pattern is
ignored — and on the Records named by the spec (The Shawshank Redemption,
Inception, Desperado) it yields exactly the Desperado record. -/
theorem claim_C3_amended :
    (∀ t : List Char,
        desSearch t = true ↔ occursIn ['d', 'e', 's'] t ∨ occursIn ['D', 'e', 's'] t)
    ∧ matchingMoviesOf ⟨[Movie.mk "The Shawshank Redemption".toList 93,
          Movie.mk "Inception".toList 91,
          Movie.mk "Desperado".toList 71]⟩
        = [Movie.mk "Desperado".toList 71] :=
  ⟨desSearch_iff, by decide⟩

/-- Claim C5: the filter step returns exactly the subsequence of records
whose title contains "des" or "Des" anywhere, preserves the relative order of
the records (the result is a sublist of the insertion-order view), and does
not mutate the popular collection. -/
theorem claim_C5 (db : MovieDatabase) :
    matchingMoviesOf db = db.GetMovies.filter (fun m => desSearch m.title)
    ∧ List.Sublist (matchingMoviesOf db) db.GetMovies
    ∧ (∀ m : Movie, desSearch m.title = true ↔
        occursIn ['d', 'e', 's'] m.title ∨ occursIn ['D', 'e', 's'] m.title)
    ∧ (matchingMoviesOfC db).2 = db :=
  ⟨rfl, List.filter_sublist _, fun m => desSearch_iff m.title, rfl⟩

/-- Body of one HTTP response, as far as the program inspects it: either text
that parses as a JSON envelope whose "results" array carries (title,
vote_average) pairs, or text that is not a well-formed JSON document — the
empty string in particular. -/
inductive Body where
  | good (results : List (List Char × Rat))
  | bad
  deriving DecidableEq

/-- Outcome of one attempted HTTP GET: either a response body, or the
exception thrown by the HTTP client (connection error, timeout, malformed
response), carried as its message. -/
abbrev TransportResult := Except (List Char) Body

/-- Embeds `TMDBServiceProvider::MakeHttpGetRequest` (TMDBServiceProvider.cpp):
the request either produces the response body or throws; a thrown exception
is caught, reported to stderr, and replaced by `return empty` — and the empty
string is not a parseable JSON document (`Body.bad`). -/
def MakeHttpGetRequest (t : TransportResult) : Body :=
  match t with
  | .ok b => b
  | .error _ => Body.bad

/-- Embeds `TMDBServiceProvider::GetPopularMovies(page)`
(TMDBServiceProvider.h): format the popular-movies URL for the page and
delegate to `MakeHttpGetRequest`; the transport oracle maps each page number
to the outcome of its HTTP GET. -/
def GetPopularMovies (transport : Nat → TransportResult) (page : Nat) : Body :=
  MakeHttpGetRequest (transport page)

/-- Embeds `TMDBServiceProvider::GetNowPlayingMovies(page)`, identical to
`GetPopularMovies` up to the URL, which the transport oracle absorbs. -/
def GetNowPlayingMovies (transport : Nat → TransportResult) (page : Nat) : Body :=
  MakeHttpGetRequest (transport page)

/-- Models `nlohmann::json::parse` followed by the per-movie extraction of
`movie["title"]` and `movie["vote_average"]` from `json["results"]`
(StreamFlix.cpp): a well-formed envelope yields its pairs; text that is not a
JSON document — in particular the empty string produced after a caught
transport failure — makes `json::parse` throw `nlohmann::json::parse_error`,
modelled as the error outcome. -/
def parseResults : Body → Except Unit (List (List Char × Rat))
  | .good rs => .ok rs
  | .bad => .error ()

/-- One `AddMovie` call per parsed (title, vote_average) pair, in order. -/
def addResults (db : MovieDatabase) (rs : List (List Char × Rat)) : MovieDatabase :=
  rs.foldl (fun d p => d.AddMovie p.1 p.2) db

/-- The records one page of parsed results contributes to a collection. -/
def recordsOfPage (rs : List (List Char × Rat)) : MovieList :=
  rs.map (fun p => Movie.mk (cStringOf p.1) p.2)

/-- Embeds the popular-movies thread body of `StreamFlix::Run`
(StreamFlix.cpp): `for (int i = 1; i <= 5; ++i)` fetch page `i`, parse the
body, and append every parsed pair into the popular collection; an exception
escaping an iteration (the parse throwing) aborts the loop — and, being
uncaught inside a `std::thread`, terminates the process. -/
def popularLoop (transport : Nat → TransportResult) : Except Unit MovieDatabase :=
  (List.range' 1 5).foldlM
    (fun db i => (parseResults (GetPopularMovies transport i)).map (addResults db))
    (MovieDatabase.mk [])

/-- Embeds the now-playing thread body of `StreamFlix::Run`: one fetch of
page 1, parsed and appended into the now-playing collection. -/
def nowPlayingLoop (transport : Nat → TransportResult) : Except Unit MovieDatabase :=
  (parseResults (GetNowPlayingMovies transport 1)).map (addResults (MovieDatabase.mk []))

theorem addResults_movies (db : MovieDatabase) (rs : List (List Char × Rat)) :
    addResults db rs = MovieDatabase.mk (db.movies ++ recordsOfPage rs) := by
  induction rs generalizing db with
  | nil => simp [addResults, recordsOfPage]
  | cons p ps ih =>
    have h := ih (db.AddMovie p.1 p.2)
    simp only [addResults, List.foldl_cons] at h ⊢
    rw [h]
    simp [MovieDatabase.AddMovie, recordsOfPage]

theorem popularLoop_allGood (rs : Nat → List (List Char × Rat)) :
    popularLoop (fun i => .ok (Body.good (rs i)))
      = .ok (MovieDatabase.mk (recordsOfPage (rs 1) ++ recordsOfPage (rs 2)
          ++ recordsOfPage (rs 3) ++ recordsOfPage (rs 4) ++ recordsOfPage (rs 5))) := by
  have h : popularLoop (fun i => .ok (Body.good (rs i)))
      = .ok (addResults (addResults (addResults (addResults
          (addResults (MovieDatabase.mk []) (rs 1)) (rs 2)) (rs 3)) (rs 4)) (rs 5)) := rfl
  rw [h]
  simp [addResults_movies, List.append_assoc]

/-- The transport for a run where the page-3 fetch fails (connection timeout)
and every other page is healthy. -/
def failingTransport : Nat → TransportResult :=
  fun i => if i = 3 then .error "connection timed out".toList
           else .ok (Body.good [(['a'], 1)])

/-- Claim C1 (code bug): on a transport failure `MakeHttpGetRequest` does
catch the exception and return the empty string, but `json::parse` then
throws on that empty string, so the failed page does not contribute zero
records with the loop continuing to the next page: the popular loop aborts
with the parse error — an exception that, escaping the thread body, takes
down the whole run — even though pages 1, 2, 4 and 5 are all healthy. -/
theorem claim_C1_crash :
    MakeHttpGetRequest (failingTransport 3) = Body.bad
    ∧ popularLoop failingTransport = Except.error () :=
  ⟨rfl, rfl⟩

/-- Claim C4 (amended): when every one of the five page fetches succeeds with
parsed results `rs i` on page `i`, the popular loop visits exactly pages 1
through 5 in that order and appends every fetched pair: the final collection
is the page-1 records followed by those of pages 2, 3, 4, 5, and its size is
the sum of the five page item counts.  (A failed page does not merely
contribute zero records: it aborts the loop, see the C4 counterexample.) -/
theorem claim_C4 (transport : Nat → TransportResult)
    (rs : Nat → List (List Char × Rat))
    (h : ∀ i, transport i = .ok (Body.good (rs i))) :
    popularLoop transport
      = .ok (MovieDatabase.mk (recordsOfPage (rs 1) ++ recordsOfPage (rs 2)
          ++ recordsOfPage (rs 3) ++ recordsOfPage (rs 4) ++ recordsOfPage (rs 5)))
    ∧ (recordsOfPage (rs 1) ++ recordsOfPage (rs 2) ++ recordsOfPage (rs 3)
        ++ recordsOfPage (rs 4) ++ recordsOfPage (rs 5)).length
      = (rs 1).length + (rs 2).length + (rs 3).length
        + (rs 4).length + (rs 5).length := by
  constructor
  · have ht : transport = fun i => .ok (Body.good (rs i)) := funext h
    rw [ht, popularLoop_allGood]
  · simp only [List.length_append, recordsOfPage, List.length_map]

/-- The transport for a run where the page-2 fetch fails (connection refused)
and pages 1, 3, 4 and 5 are healthy, carrying one pair each. -/
def failingTransport2 : Nat → TransportResult :=
  fun i => if i = 2 then .error "connection refused".toList
           else .ok (Body.good [(['b'], 2)])

/-- Claim C4 counterexample: with the page-2 fetch failing and pages 1, 3, 4
and 5 healthy, the claim predicts a popular Collection holding the four
successful pages records (the failed page contributing zero); the code
instead aborts the loop at the failing page — no Collection outcome is
produced at all, and pages 3 through 5 are never requested. -/
theorem claim_C4_counterexample :
    popularLoop failingTransport2 = Except.error ()
    ∧ (popularLoop failingTransport2).isOk = false :=
  ⟨rfl, rfl⟩

/-- A transport stub where page `i` carries exactly one (title, rating)
pair. -/
def pageStub (i : Nat) : List (List Char × Rat) := [(['m'], (i : Rat))]

/-- Transport where every page fetch succeeds with the stub results. -/
def allGoodTransport : Nat → TransportResult :=
  fun i => .ok (Body.good (pageStub i))

/-- Claim C4, witnessed on the concrete all-healthy transport. -/
theorem claim_C4_witness :
    (popularLoop allGoodTransport
      = .ok (MovieDatabase.mk (recordsOfPage (pageStub 1) ++ recordsOfPage (pageStub 2)
          ++ recordsOfPage (pageStub 3) ++ recordsOfPage (pageStub 4)
          ++ recordsOfPage (pageStub 5))))
    ∧ (recordsOfPage (pageStub 1) ++ recordsOfPage (pageStub 2)
        ++ recordsOfPage (pageStub 3) ++ recordsOfPage (pageStub 4)
        ++ recordsOfPage (pageStub 5)).length
      = (pageStub 1).length + (pageStub 2).length + (pageStub 3).length
        + (pageStub 4).length + (pageStub 5).length :=
  claim_C4 allGoodTransport pageStub (fun _ => rfl)

/-- One atomic step of a worker thread of `StreamFlix::Run`: an update of the
collection the thread owns.  The left summand is a popular-thread step, the
right summand a now-playing-thread step. -/
abbrev ThreadAct := (MovieDatabase → MovieDatabase) ⊕ (MovieDatabase → MovieDatabase)

/-- The state shared by the two threads of `Run`: the popular and the
now-playing collections. -/
abbrev RunState := MovieDatabase × MovieDatabase

/-- Effect of one step on the shared state: each thread writes only to its
own collection. -/
def applyAct (s : RunState) : ThreadAct → RunState
  | .inl f => (f s.1, s.2)
  | .inr g => (s.1, g s.2)

/-- Effect of one step on the popular collection alone. -/
def applyFst (d : MovieDatabase) : ThreadAct → MovieDatabase
  | .inl f => f d
  | .inr _ => d

/-- Effect of one step on the now-playing collection alone. -/
def applySnd (d : MovieDatabase) : ThreadAct → MovieDatabase
  | .inl _ => d
  | .inr g => g d

/-- The schedules the runtime may choose between the `std::thread` launches
and the two joins: all sequences interleaving the two thread programs while
preserving each program order. -/
inductive Interleave : List ThreadAct → List ThreadAct → List ThreadAct → Prop where
  | nil : Interleave [] [] []
  | consL (x : ThreadAct) (xs ys ws : List ThreadAct) :
      Interleave xs ys ws → Interleave (x :: xs) ys (x :: ws)
  | consR (y : ThreadAct) (xs ys ws : List ThreadAct) :
      Interleave xs ys ws → Interleave xs (y :: ys) (y :: ws)

/-- Program of the popular thread, one step per loop iteration: page `i`
fetched, parsed to `rs i`, and appended, for i = 1..5. -/
def popularActs (rs : Nat → List (List Char × Rat)) : List ThreadAct :=
  (List.range' 1 5).map (fun i => Sum.inl (fun db => addResults db (rs i)))

/-- Program of the now-playing thread: its single page-1 step. -/
def nowPlayingActs (rs : Nat → List (List Char × Rat)) : List ThreadAct :=
  [Sum.inr (fun db => addResults db (rs 1))]

theorem foldl_applyAct (ws : List ThreadAct) (s : RunState) :
    ws.foldl applyAct s = (ws.foldl applyFst s.1, ws.foldl applySnd s.2) := by
  induction ws generalizing s with
  | nil => rfl
  | cons a ws ih =>
    cases a with
    | inl f =>
      simpa only [List.foldl_cons, applyAct, applyFst, applySnd] using ih (f s.1, s.2)
    | inr g =>
      simpa only [List.foldl_cons, applyAct, applyFst, applySnd] using ih (s.1, g s.2)

theorem foldl_applyFst_of_interleave :
    ∀ {xs ys ws : List ThreadAct}, Interleave xs ys ws →
      (∀ y ∈ ys, ∃ g, y = Sum.inr g) →
      ∀ d, ws.foldl applyFst d = xs.foldl applyFst d := by
  intro xs ys ws h
  induction h with
  | nil => intro _ _; rfl
  | consL x xs ys ws h ih =>
    intro hy d
    simp only [List.foldl_cons]
    exact ih hy _
  | consR y xs ys ws h ih =>
    intro hy d
    obtain ⟨g, hg⟩ := hy y (List.mem_cons_self y ys)
    subst hg
    simp only [List.foldl_cons]
    have happ : applyFst d (Sum.inr g) = d := rfl
    rw [happ]
    exact ih (fun z hz => hy z (List.mem_cons_of_mem _ hz)) d

theorem foldl_applySnd_of_interleave :
    ∀ {xs ys ws : List ThreadAct}, Interleave xs ys ws →
      (∀ x ∈ xs, ∃ f, x = Sum.inl f) →
      ∀ d, ws.foldl applySnd d = ys.foldl applySnd d := by
  intro xs ys ws h
  induction h with
  | nil => intro _ _; rfl
  | consL x xs ys ws h ih =>
    intro hx d
    obtain ⟨f, hf⟩ := hx x (List.mem_cons_self x xs)
    subst hf
    simp only [List.foldl_cons]
    have happ : applySnd d (Sum.inl f) = d := rfl
    rw [happ]
    exact ih (fun z hz => hx z (List.mem_cons_of_mem _ hz)) d
  | consR y xs ys ws h ih =>
    intro hx d
    simp only [List.foldl_cons]
    exact ih hx _

theorem popularActs_left (rs : Nat → List (List Char × Rat)) :
    ∀ x ∈ popularActs rs, ∃ f, x = Sum.inl f := by
  intro x hx
  simp only [popularActs, List.mem_map] at hx
  obtain ⟨i, _, rfl⟩ := hx
  exact ⟨_, rfl⟩

theorem nowPlayingActs_right (rs : Nat → List (List Char × Rat)) :
    ∀ y ∈ nowPlayingActs rs, ∃ g, y = Sum.inr g := by
  intro y hy
  simp only [nowPlayingActs, List.mem_singleton] at hy
  exact ⟨_, hy⟩

theorem popularActs_foldl (rs : Nat → List (List Char × Rat)) (d : MovieDatabase) :
    (popularActs rs).foldl applyFst d
      = addResults (addResults (addResults (addResults
          (addResults d (rs 1)) (rs 2)) (rs 3)) (rs 4)) (rs 5) := rfl

/-- Claim C8: `Run` starts one worker per category and joins both before
using the collections.  Whatever schedule the runtime chooses for the two
thread programs, the state observed after both joins is the same fully
populated pair of collections, equal to what the two sequential loop bodies
compute — no partial or interleaved state is observable to the caller, who
sees `Run` as synchronous. -/
theorem claim_C8 (rs rsN : Nat → List (List Char × Rat)) (ws : List ThreadAct)
    (h : Interleave (popularActs rs) (nowPlayingActs rsN) ws) :
    ws.foldl applyAct (MovieDatabase.mk [], MovieDatabase.mk [])
      = (MovieDatabase.mk (recordsOfPage (rs 1) ++ recordsOfPage (rs 2)
          ++ recordsOfPage (rs 3) ++ recordsOfPage (rs 4) ++ recordsOfPage (rs 5)),
         MovieDatabase.mk (recordsOfPage (rsN 1)))
    ∧ Except.ok (ws.foldl applyAct (MovieDatabase.mk [], MovieDatabase.mk [])).1
        = popularLoop (fun i => .ok (Body.good (rs i)))
    ∧ Except.ok (ws.foldl applyAct (MovieDatabase.mk [], MovieDatabase.mk [])).2
        = nowPlayingLoop (fun i => .ok (Body.good (rsN i))) := by
  have h1 : ws.foldl applyFst (MovieDatabase.mk [])
      = MovieDatabase.mk (recordsOfPage (rs 1) ++ recordsOfPage (rs 2)
          ++ recordsOfPage (rs 3) ++ recordsOfPage (rs 4) ++ recordsOfPage (rs 5)) := by
    rw [foldl_applyFst_of_interleave h (nowPlayingActs_right rsN)]
    rw [popularActs_foldl]
    simp [addResults_movies, List.append_assoc]
  have h2 : ws.foldl applySnd (MovieDatabase.mk [])
      = MovieDatabase.mk (recordsOfPage (rsN 1)) := by
    rw [foldl_applySnd_of_interleave h (popularActs_left rs)]
    show addResults (MovieDatabase.mk []) (rsN 1) = _
    rw [addResults_movies]
    simp
  refine ⟨?_, ?_, ?_⟩
  · rw [foldl_applyAct, h1, h2]
  · rw [foldl_applyAct, popularLoop_allGood]
    exact congrArg Except.ok h1
  · rw [foldl_applyAct]
    have hnow : nowPlayingLoop (fun i => .ok (Body.good (rsN i)))
        = .ok (addResults (MovieDatabase.mk []) (rsN 1)) := rfl
    have h3 : addResults (MovieDatabase.mk []) (rsN 1)
        = MovieDatabase.mk (recordsOfPage (rsN 1)) := by
      rw [addResults_movies]
      simp
    rw [hnow, h3]
    exact congrArg Except.ok h2

theorem interleave_nil_left (ys : List ThreadAct) : Interleave [] ys ys := by
  induction ys with
  | nil => exact .nil
  | cons y ys ih => exact .consR y [] ys ys ih

theorem interleave_append (xs ys : List ThreadAct) : Interleave xs ys (xs ++ ys) := by
  induction xs with
  | nil => simpa using interleave_nil_left ys
  | cons x xs ih => exact .consL x xs ys (xs ++ ys) ih

/-- Claim C8, witnessed on the stub fetch results and the schedule that runs
the whole popular thread before the now-playing thread. -/
theorem claim_C8_witness :
    ((popularActs pageStub ++ nowPlayingActs pageStub).foldl applyAct
        (MovieDatabase.mk [], MovieDatabase.mk [])
      = (MovieDatabase.mk (recordsOfPage (pageStub 1) ++ recordsOfPage (pageStub 2)
          ++ recordsOfPage (pageStub 3) ++ recordsOfPage (pageStub 4)
          ++ recordsOfPage (pageStub 5)),
         MovieDatabase.mk (recordsOfPage (pageStub 1))))
    ∧ Except.ok ((popularActs pageStub ++ nowPlayingActs pageStub).foldl applyAct
        (MovieDatabase.mk [], MovieDatabase.mk [])).1
        = popularLoop (fun i => .ok (Body.good (pageStub i)))
    ∧ Except.ok ((popularActs pageStub ++ nowPlayingActs pageStub).foldl applyAct
        (MovieDatabase.mk [], MovieDatabase.mk [])).2
        = nowPlayingLoop (fun i => .ok (Body.good (pageStub i))) :=
  claim_C8 pageStub pageStub (popularActs pageStub ++ nowPlayingActs pageStub)
    (interleave_append _ _)
